import Mathlib

/-!
Verification development for the rssdl repository (a weekly-scheduled RSS
feed downloader).

Shallow embedding conventions:
* An instant (Go `time.Time`) is modelled as an `Int`: nanoseconds since the
  Unix epoch in a fixed-offset location (UTC).  In such a location Go's
  `time.Date(Y, M, D+k, h, m, 0, 0, loc)` equals the midnight of the calendar
  day containing the reference instant, plus `k` days, `h` hours and `m`
  minutes, which is what the definitions below compute; the Unix epoch
  (1970-01-01) was a Thursday, weekday index 4.
* A Go `time.Duration` is an integer number of nanoseconds; Go's integer
  division of durations truncates toward zero (`Int.tdiv`).
* Fallible Go functions returning `(T, error)` are modelled with
  `Option`/`Except`.
* Strings handled byte-wise by the Go code are modelled as `List Char`
  (all inputs of interest are ASCII); feed order keys are `String`s whose
  Lean lexicographic order coincides with Go's byte-wise order on UTF-8.
-/

def nsPerSec : Int := 1000000000

def nsPerMin : Int := 60 * nsPerSec

def nsPerHour : Int := 60 * nsPerMin

def nsPerDay : Int := 24 * nsPerHour

/-- Index of the calendar day (in UTC) containing the instant `t`. -/
def dayIndex (t : Int) : Int := t / nsPerDay

/-- Midnight of the calendar day containing `t` (Go: `time.Date` with the
instant's own year/month/day and zero clock fields). -/
def startOfDay (t : Int) : Int := nsPerDay * dayIndex t

/-- Go `t.Weekday()`: 0 = Sunday .. 6 = Saturday; day 0 (1970-01-01) was a
Thursday (index 4). -/
def weekdayOf (t : Int) : Int := (dayIndex t + 4) % 7

namespace weekly

/-- Source `weekly.Time` (weekly.go): a specific time during a week. -/
structure Time where
  day : Int
  hour : Int
  min : Int
deriving DecidableEq, Repr

/-- The data-model ranges of a `weekly.Time` as produced by `weekly.Parse`:
day in Sun..Sat, hour on the 24-hour clock, minute 0..59. -/
def Time.Valid (wt : Time) : Prop :=
  0 ≤ wt.day ∧ wt.day ≤ 6 ∧ 0 ≤ wt.hour ∧ wt.hour ≤ 23 ∧ 0 ≤ wt.min ∧ wt.min ≤ 59

instance (wt : Time) : Decidable wt.Valid := by unfold Time.Valid; infer_instance

/-- Source `weekly.Time.InWeek` (weekly.go): converts a weekly.Time to the
instant in the same week as `tt`, via
`time.Date(Y, M, D + int(wt.day) - int(tt.Weekday()), wt.hour, wt.min, 0, 0, loc)`. -/
def Time.InWeek (wt : Time) (tt : Int) : Int :=
  startOfDay tt + (wt.day - weekdayOf tt) * nsPerDay + wt.hour * nsPerHour + wt.min * nsPerMin

/-- Source `weekly.Time.Before` (weekly.go): lexicographic comparison of
(day, hour, min). -/
def Time.Before (wt owt : Time) : Bool :=
  decide (wt.day < owt.day) ||
    (decide (wt.day = owt.day) && decide (wt.hour < owt.hour)) ||
    (decide (wt.day = owt.day) && decide (wt.hour = owt.hour) && decide (wt.min < owt.min))

/-- Source `nextTick` (weekly.go):
`s, e := start.InWeek(tck), end.InWeek(tck)`; if before `s` return `s`;
if before `e` return `s.Add(freq * (1 + tck.Sub(s)/freq))` unless that is not
before `e`; otherwise return `s.AddDate(0, 0, 7)`.  Go duration division
truncates toward zero, hence `Int.tdiv`; `AddDate(0,0,7)` adds exactly seven
days in a fixed-offset location. -/
def nextTick (tck : Int) (start end_ : Time) (freq : Int) : Int :=
  let s := start.InWeek tck
  let e := end_.InWeek tck
  if tck < s then s
  else if tck < e then
    let nxt := s + freq * (1 + Int.tdiv (tck - s) freq)
    if nxt < e then nxt else s + 7 * nsPerDay
  else s + 7 * nsPerDay

/-- Modelled from the spec for the refinement claim C1: the spec's three-case
algorithm, phrased with a mathematical floor division (`Int.ediv` is floor
division for a positive divisor), taking the already-mapped window bounds
`s` and `e`. -/
def specNextTick (t s e freq : Int) : Int :=
  if t < s then s
  else if t < e then
    let c := s + freq * (1 + (t - s) / freq)
    if c < e then c else s + 7 * nsPerDay
  else s + 7 * nsPerDay

/-- Source `TickSpecification` (weekly.go). -/
structure TickSpecification where
  Start : Time
  End : Time
  Frequency : Int
deriving DecidableEq, Repr

/-- Source `NewTicker` (weekly.go, list-of-specifications version): the
validation performed before any goroutine is started, returning the `error`
result (`Except.ok` when a ticker is returned). -/
def NewTicker : List TickSpecification → Except String Unit
  | [] => .ok ()
  | ts :: rest =>
    if ts.End.Before ts.Start then .error "end is before start"
    else if ts.Frequency ≤ 0 then .error "freq is nonpositive"
    else NewTicker rest

/-- Go `'0' <= c && c <= '9'` (time package digit test). -/
def isDigitChar (c : Char) : Bool := decide ('0' ≤ c) && decide (c ≤ '9')

/-- Numeric value of a digit character (Go `c - '0'`). -/
def digitVal (c : Char) : Int := (c.toNat : Int) - 48

/-- Digit character for a value 0..9 (Go `'0' + d`). -/
def digitChar (n : Int) : Char := Char.ofNat (48 + n.toNat)

/-- Go `getnum` from the `time` package: one or two digits; with `fixed` set a
single digit is an error; two digits are consumed whenever the second
character is also a digit. -/
def getnum (s : List Char) (fixed : Bool) : Option (Int × List Char) :=
  match s with
  | [] => none
  | c1 :: t1 =>
    if isDigitChar c1 then
      match t1 with
      | c2 :: t2 =>
        if isDigitChar c2 then some (10 * digitVal c1 + digitVal c2, t2)
        else if fixed then none else some (digitVal c1, t1)
      | [] => if fixed then none else some (digitVal c1, [])
    else none

/-- Go `time.Parse(time.Kitchen, s)` projected to (hour, minute): layout
`3:04PM`; hour is 1-2 digits at most 12, minute exactly two digits at most 59,
then an uppercase `PM`/`AM` which adjusts the hour to the 24-hour clock, and
nothing may remain. -/
def parseKitchen (s : List Char) : Option (Int × Int) :=
  match getnum s false with
  | none => none
  | some (h, s1) =>
    if 12 < h then none
    else match s1 with
      | ':' :: s2 =>
        (match getnum s2 true with
         | none => none
         | some (m, s3) =>
           if 59 < m then none
           else match s3 with
             | 'P' :: 'M' :: s4 =>
               if s4 = [] then some ((if h < 12 then h + 12 else h), m) else none
             | 'A' :: 'M' :: s4 =>
               if s4 = [] then some ((if h = 12 then 0 else h), m) else none
             | _ => none)
      | _ => none

/-- Source `strToDay` map (weekly.go): 3-letter weekday plus a trailing space. -/
def strToDay (s : List Char) : Option Int :=
  if s = ['S', 'u', 'n', ' '] then some 0
  else if s = ['M', 'o', 'n', ' '] then some 1
  else if s = ['T', 'u', 'e', ' '] then some 2
  else if s = ['W', 'e', 'd', ' '] then some 3
  else if s = ['T', 'h', 'u', ' '] then some 4
  else if s = ['F', 'r', 'i', ' '] then some 5
  else if s = ['S', 'a', 't', ' '] then some 6
  else none

/-- Source `weekly.Parse` (weekly.go): at least four bytes, the first four a
known weekday prefix, the rest a Kitchen-format clock time. -/
def Parse (val : List Char) : Option Time :=
  if val.length < 4 then none
  else match strToDay (val.take 4) with
    | none => none
    | some d =>
      match parseKitchen (val.drop 4) with
      | none => none
      | some (h, m) => some ⟨d, h, m⟩

/-- Source `dayToStr` map (weekly.go); a missing key renders as the empty
string (Go map miss). -/
def dayToStr (d : Int) : List Char :=
  if d = 0 then ['S', 'u', 'n']
  else if d = 1 then ['M', 'o', 'n']
  else if d = 2 then ['T', 'u', 'e']
  else if d = 3 then ['W', 'e', 'd']
  else if d = 4 then ['T', 'h', 'u']
  else if d = 5 then ['F', 'r', 'i']
  else if d = 6 then ['S', 'a', 't']
  else []

/-- Rendering of `%d` for the modified hour (the source only ever formats
values in 1..12 here, for which one digit or a leading `1` suffices). -/
def hourStr (n : Int) : List Char :=
  if n < 10 then [digitChar n] else ['1', digitChar (n - 10)]

/-- Rendering of `%02d` for the minute field (two digits, range 0..99). -/
def minStr (n : Int) : List Char := [digitChar (n / 10), digitChar (n % 10)]

/-- Source `weekly.Time.String` (weekly.go):
`fmt.Sprintf("%s %d:%02d%s", dayToStr[day], mhr, min, ampm)` with
`mhr = hour % 12` mapped to `12` when zero and `ampm` chosen by `hour >= 12`. -/
def Time.String (wt : Time) : List Char :=
  let ampm := if 12 ≤ wt.hour then ['P', 'M'] else ['A', 'M']
  let mhr0 := wt.hour % 12
  let mhr := if mhr0 = 0 then 12 else mhr0
  dayToStr wt.day ++ ' ' :: (hourStr mhr ++ ':' :: (minStr wt.min ++ ampm))

/-- A canonical weekday-time string: the canonical form produced by
`Time.String` on an in-range weekly time (3-letter weekday, one space,
12-hour clock time with two-digit minutes and an AM/PM suffix). -/
def Canonical (s : List Char) : Prop :=
  ∃ w : Time, w.Valid ∧ w.String = s

end weekly

namespace week

/-- Source `week.InSameWeek` (week.go): rewind both instants to the Sunday of
their week via `AddDate(0, 0, -weekday)` and compare year/month/day (equal
calendar day iff equal day index; the single modelled location makes the
`Location()` comparison trivially true). -/
def InSameWeek (t1 t2 : Int) : Bool :=
  dayIndex (t1 - weekdayOf t1 * nsPerDay) == dayIndex (t2 - weekdayOf t2 * nsPerDay)

end week

namespace rssdld

/-- One fetched feed item as the `checkFeed` cycle sees it: its parsed publish
time (`PublishedParsed`; `none` when absent or unparseable) and the result of
applying the feed's order regex to the title (`none` when the title does not
match, `some k` for the single capture group). -/
structure Item where
  pub : Option Int
  key : Option String
deriving DecidableEq, Repr

/-- Result of one `checkFeed` cycle: the in-memory order key after the cycle,
the keys downloaded successfully, and the keys for which a download was
attempted, each in processing order. -/
structure CycleResult where
  order : String
  downloads : List String
  attempts : List String
deriving DecidableEq, Repr

/-- Go's lexicographic string comparison `a < b`, on code points (for UTF-8
data, byte-wise and code-point-wise lexicographic order coincide). -/
def listLt : List Char → List Char → Bool
  | _, [] => false
  | [], _ :: _ => true
  | c1 :: t1, c2 :: t2 => if c1 = c2 then listLt t1 t2 else decide (c1 < c2)

/-- Go `a < b` on strings. -/
def strLt (a b : String) : Bool := listLt a.data b.data

/-- The per-item loop of `checkFeed` (rssdld.go): skip a non-matching title;
skip a key not strictly greater than the current order (`o <= order`);
otherwise attempt the download, and on failure `break` out of the loop,
leaving the order at its current value.  `dl` abstracts the external
`download` collaborator (`true` = success). -/
def processItems (dl : Item → Bool) : List Item → String → CycleResult
  | [], order => ⟨order, [], []⟩
  | itm :: rest, order =>
    match itm.key with
    | none => processItems dl rest order
    | some o =>
      if !strLt order o then processItems dl rest order
      else if dl itm then
        let r := processItems dl rest o
        ⟨r.order, o :: r.downloads, o :: r.attempts⟩
      else ⟨order, [], [o]⟩

/-- Publish time of an item; only evaluated on items that have one. -/
def pubVal (itm : Item) : Int := itm.pub.getD 0

/-- Stable ascending insertion by publish time, matching
`sort.SliceStable(itms, less = PublishedParsed.Before)`: an element is placed
before every element of equal publish time that followed it originally. -/
def insertByPub (itm : Item) : List Item → List Item
  | [] => [itm]
  | y :: ys => if pubVal y < pubVal itm then y :: insertByPub itm ys else itm :: y :: ys

/-- Stable sort of the fetched items, oldest first. -/
def sortByPub : List Item → List Item
  | [] => []
  | itm :: rest => insertByPub itm (sortByPub rest)

/-- One `checkFeed` cycle after a successful fetch (rssdld.go): if any item
lacks a parseable publish time the whole cycle is abandoned
(`continue CHECK_LOOP`) before any download; otherwise the items are
stably sorted oldest-first and processed. -/
def checkCycle (dl : Item → Bool) (itms : List Item) (order : String) : CycleResult :=
  if itms.any fun itm => itm.pub.isNone then ⟨order, [], []⟩
  else processItems dl (sortByPub itms) order

/-- Modelled from the spec for the refinement claim C3: over the sequence of
extracted keys of the sorted matching items, an item is downloaded iff its key
is strictly greater than the current order key, which then advances to that
key; the result is the final order key and the downloaded keys. -/
def specDedup (order : String) : List String → String × List String
  | [] => (order, [])
  | k :: ks =>
    if strLt order k then
      let p := specDedup k ks
      (p.1, k :: p.2)
    else specDedup order ks

end rssdld

namespace state

/-- Decoded contents of the state protobuf (`pb.State.feed_state` projected to
each entry's `order` field): feed name to order key, `none` for an absent
entry. -/
def FeedMap := String → Option String

/-- The empty `pb.State`. -/
def emptyFeedMap : FeedMap := fun _ => none

/-- The state store: the in-memory map and the map most recently written
durably to the state file. -/
structure State where
  mem : FeedMap
  disk : FeedMap

/-- The error classes `Open`/`SetOrder` can produce. -/
inductive OpenError
  | readError
  | parseError
  | writeError
deriving DecidableEq, Repr

/-- What reading the state file yields: the file is missing, unreadable, or
present with decodable (`found (some m)`) or undecodable (`found none`)
contents; `proto.Unmarshal` is abstracted to its decoded result. -/
inductive ReadResult
  | missing
  | unreadable
  | found (decoded : Option FeedMap)

/-- Source `Open` (state.go): decode a readable file, failing with a parse
error on garbage; fail with a read error when the file exists but cannot be
read; start from an empty state when the file is missing; in the non-failing
cases immediately write the state back durably, failing out if that write
fails.  `writeOk` abstracts whether the durable write succeeds. -/
def Open (r : ReadResult) (writeOk : Bool) : Except OpenError State :=
  match r with
  | .found none => .error .parseError
  | .found (some m) => if writeOk then .ok ⟨m, m⟩ else .error .writeError
  | .unreadable => .error .readError
  | .missing => if writeOk then .ok ⟨emptyFeedMap, emptyFeedMap⟩ else .error .writeError

/-- Source `GetOrder` (state.go): the stored order, or `""` for an unknown
feed name. -/
def GetOrder (s : State) (name : String) : String := (s.mem name).getD ""

/-- Source `SetOrder` (state.go): update the in-memory map for `name`, then
synchronously write the entire map durably before returning; when the write
fails the error is returned but the in-memory update is kept. -/
def SetOrder (s : State) (name order : String) (writeOk : Bool) :
    State × Except OpenError Unit :=
  let m : FeedMap := fun n => if n = name then some order else s.mem n
  if writeOk then (⟨m, m⟩, .ok ()) else (⟨m, s.disk⟩, .error .writeError)

end state

/-- C7: for every WeekTime value w (with its data-model field ranges) and
every instant t, InWeek is idempotent on its own output, and the result falls
in the same calendar week as t. -/
theorem c7_InWeek_idempotent_and_same_week (w : weekly.Time) (t : Int) (hw : w.Valid) :
    w.InWeek (w.InWeek t) = w.InWeek t ∧ week.InSameWeek t (w.InWeek t) = true := by
  obtain ⟨h1, h2, h3, h4, h5, h6⟩ := hw
  constructor
  · simp only [weekly.Time.InWeek, startOfDay, dayIndex, weekdayOf, nsPerDay, nsPerHour,
      nsPerMin, nsPerSec]
    omega
  · simp only [week.InSameWeek, weekly.Time.InWeek, startOfDay, dayIndex, weekdayOf,
      nsPerDay, nsPerHour, nsPerMin, nsPerSec, beq_iff_eq]
    omega

/-- Helper: one more whole step of truncated division passes the dividend. -/
theorem lt_mul_one_add_tdiv (a b : Int) (ha : 0 ≤ a) (hb : 0 < b) :
    a < b * (1 + Int.tdiv a b) := by
  rw [Int.tdiv_eq_ediv ha (Int.le_of_lt hb)]
  have h1 := Int.ediv_add_emod a b
  have h2 := Int.emod_lt_of_pos a hb
  have h3 : b * (1 + a / b) = b + b * (a / b) := by ring
  omega

/-- C10: for every tick specification with end not before start and positive
frequency, and every instant, the next tick is strictly in the future. -/
theorem c10_nextTick_progress (tck : Int) (start end_ : weekly.Time) (freq : Int)
    (hs : start.Valid) (he : end_.Valid) (_hnb : end_.Before start = false) (hf : 0 < freq) :
    tck < weekly.nextTick tck start end_ freq := by
  obtain ⟨hs1, hs2, hs3, hs4, hs5, hs6⟩ := hs
  obtain ⟨he1, he2, he3, he4, he5, he6⟩ := he
  simp only [weekly.nextTick]
  split_ifs with h1 h2 h3
  · exact h1
  · have ha : 0 ≤ tck - start.InWeek tck := by omega
    have := lt_mul_one_add_tdiv (tck - start.InWeek tck) freq ha hf
    omega
  · clear h3
    simp only [weekly.Time.InWeek, startOfDay, dayIndex, weekdayOf, nsPerDay, nsPerHour,
      nsPerMin, nsPerSec] at h1 h2 ⊢
    omega
  · clear h2
    simp only [weekly.Time.InWeek, startOfDay, dayIndex, weekdayOf, nsPerDay, nsPerHour,
      nsPerMin, nsPerSec] at h1 ⊢
    omega

/-- C1: nextTick follows the spec's three-case algorithm (with s, e the window
bounds mapped into the current week and floor division anchored at s), and for
the window Tue 12:00PM to Thu 12:00PM with frequency 60s, nextTick at a
Wednesday 02:00AM instant is the following Wednesday 02:01AM instant. -/
theorem c1_nextTick_three_cases :
    (∀ (tck : Int) (start end_ : weekly.Time) (freq : Int),
        start.Valid → end_.Valid → end_.Before start = false → 0 < freq →
        weekly.nextTick tck start end_ freq
          = weekly.specNextTick tck (start.InWeek tck) (end_.InWeek tck) freq)
    ∧ weekly.nextTick (6 * nsPerDay + 2 * nsPerHour) ⟨2, 12, 0⟩ ⟨4, 12, 0⟩ (60 * nsPerSec)
        = 6 * nsPerDay + 2 * nsPerHour + 60 * nsPerSec := by
  constructor
  · intro tck start end_ freq _ _ _ hf
    simp only [weekly.nextTick, weekly.specNextTick]
    by_cases h1 : tck < start.InWeek tck
    · simp [h1]
    · by_cases h2 : tck < end_.InWeek tck
      · have ha : 0 ≤ tck - start.InWeek tck := by omega
        simp only [if_neg h1, if_pos h2]
        rw [Int.tdiv_eq_ediv ha (Int.le_of_lt hf)]
      · simp [h1, h2]
  · decide

/-- Witness for C7 at Thu 7:30PM and the instant 2017-08-16 04:22:37 UTC. -/
theorem c7_InWeek_idempotent_and_same_week_witness :
    (weekly.Time.mk 4 19 30).InWeek ((weekly.Time.mk 4 19 30).InWeek 1502857357000000000)
        = (weekly.Time.mk 4 19 30).InWeek 1502857357000000000
      ∧ week.InSameWeek 1502857357000000000
          ((weekly.Time.mk 4 19 30).InWeek 1502857357000000000) = true :=
  c7_InWeek_idempotent_and_same_week ⟨4, 19, 30⟩ 1502857357000000000 (by decide)

/-- Witness for C10 at the Wed 02:00AM instant of the C1 example window. -/
theorem c10_nextTick_progress_witness :
    6 * nsPerDay + 2 * nsPerHour
      < weekly.nextTick (6 * nsPerDay + 2 * nsPerHour) ⟨2, 12, 0⟩ ⟨4, 12, 0⟩ (60 * nsPerSec) :=
  c10_nextTick_progress (6 * nsPerDay + 2 * nsPerHour) ⟨2, 12, 0⟩ ⟨4, 12, 0⟩ (60 * nsPerSec)
    (by decide) (by decide) (by decide) (by decide)

/-- Witness for C1 applying the refinement at the example window and instant. -/
theorem c1_nextTick_three_cases_witness :
    weekly.nextTick (6 * nsPerDay + 2 * nsPerHour) ⟨2, 12, 0⟩ ⟨4, 12, 0⟩ (60 * nsPerSec)
      = weekly.specNextTick (6 * nsPerDay + 2 * nsPerHour)
          ((weekly.Time.mk 2 12 0).InWeek (6 * nsPerDay + 2 * nsPerHour))
          ((weekly.Time.mk 4 12 0).InWeek (6 * nsPerDay + 2 * nsPerHour)) (60 * nsPerSec) :=
  c1_nextTick_three_cases.1 (6 * nsPerDay + 2 * nsPerHour) ⟨2, 12, 0⟩ ⟨4, 12, 0⟩
    (60 * nsPerSec) (by decide) (by decide) (by decide) (by decide)

/-- C2 counterexample: the ticker constructor accepts an empty specification
list and accepts two overlapping windows (Tue noon-Thu noon and Wed noon-Fri
noon), returning a ticker and no error in both cases. -/
theorem c2_NewTicker_counterexample :
    weekly.NewTicker [] = .ok ()
      ∧ weekly.NewTicker
          [⟨⟨2, 12, 0⟩, ⟨4, 12, 0⟩, 60 * nsPerSec⟩, ⟨⟨3, 12, 0⟩, ⟨5, 12, 0⟩, 60 * nsPerSec⟩]
          = .ok () := by
  constructor
  · rfl
  · rfl

/-- C2 amended: ticker construction returns an error exactly when some
specification has its end before its start or a non-positive frequency; an
empty specification list and overlapping windows are accepted. -/
theorem c2_amended_NewTicker_validation (specs : List weekly.TickSpecification) :
    weekly.NewTicker specs = .ok ()
      ↔ ∀ ts ∈ specs, ts.End.Before ts.Start = false ∧ 0 < ts.Frequency := by
  induction specs with
  | nil =>
    constructor
    · intro _ ts h
      exact absurd h (List.not_mem_nil ts)
    · intro _
      rfl
  | cons ts rest ih =>
    simp only [weekly.NewTicker]
    cases h1 : ts.End.Before ts.Start
    · simp only [h1, Bool.false_eq_true, if_false]
      by_cases h2 : ts.Frequency ≤ 0
      · rw [if_pos h2]
        constructor
        · intro h
          cases h
        · intro h
          exact absurd (h ts (List.mem_cons_self ts rest)).2 (by omega)
      · rw [if_neg h2, ih]
        constructor
        · intro h x hx
          rcases List.mem_cons.mp hx with rfl | hx
          · exact ⟨h1, by omega⟩
          · exact h x hx
        · intro h x hx
          exact h x (List.mem_cons_of_mem ts hx)
    · simp only [h1, if_true]
      constructor
      · intro h
        cases h
      · intro h
        have hf := (h ts (List.mem_cons_self ts rest)).1
        rw [h1] at hf
        cases hf

/-- Helper: with every download succeeding, the per-item loop of checkFeed
implements exactly the dedup policy over the sequence of extracted keys. -/
theorem processItems_dedup (l : List rssdld.Item) (order : String) :
    ((rssdld.processItems (fun _ => true) l order).order,
      (rssdld.processItems (fun _ => true) l order).downloads)
      = rssdld.specDedup order (l.filterMap rssdld.Item.key) := by
  induction l generalizing order with
  | nil => rfl
  | cons itm rest ih =>
    obtain ⟨pub, key⟩ := itm
    cases key with
    | none => simpa [rssdld.processItems, List.filterMap_cons] using ih order
    | some o =>
      simp only [rssdld.processItems, List.filterMap_cons, rssdld.specDedup]
      cases hlt : rssdld.strLt order o
      · simpa [hlt] using ih order
      · have ih' := ih o
        rw [Prod.mk.injEq] at ih'
        simp [hlt, ih'.1, ih'.2]

/-- C3: in a cycle whose items all carry publish times and whose downloads all
succeed, the downloaded keys and final order are exactly those of the spec's
dedup policy (a matching item is downloaded iff its key is strictly greater
than the current order key; non-matching items have no effect) applied to the
keys of the oldest-first-sorted items; and for items with keys "a", "c", "b"
sorted oldest-first as "a", "b", "c" from starting order "", exactly three
downloads occur, the final order is "c", and a second identical cycle
downloads nothing. -/
theorem c3_checkFeed_dedup :
    (∀ (itms : List rssdld.Item) (order : String),
        (∀ itm ∈ itms, itm.pub.isNone = false) →
        ((rssdld.checkCycle (fun _ => true) itms order).order,
            (rssdld.checkCycle (fun _ => true) itms order).downloads)
          = rssdld.specDedup order ((rssdld.sortByPub itms).filterMap rssdld.Item.key))
    ∧ rssdld.checkCycle (fun _ => true)
        [⟨some 1, some "a"⟩, ⟨some 3, some "c"⟩, ⟨some 2, some "b"⟩] ""
        = ⟨"c", ["a", "b", "c"], ["a", "b", "c"]⟩
    ∧ rssdld.checkCycle (fun _ => true)
        [⟨some 1, some "a"⟩, ⟨some 3, some "c"⟩, ⟨some 2, some "b"⟩] "c"
        = ⟨"c", [], []⟩ := by
  refine ⟨?_, by decide, by decide⟩
  intro itms order h
  have hany : (itms.any fun itm => itm.pub.isNone) = false := by
    rw [List.any_eq_false]
    intro itm hm
    simp [h itm hm]
  rw [rssdld.checkCycle, hany]
  simpa using processItems_dedup (rssdld.sortByPub itms) order

/-- Witness for C3 applying the refinement conjunct to the example items. -/
theorem c3_checkFeed_dedup_witness :
    ((rssdld.checkCycle (fun _ => true)
          [⟨some 1, some "a"⟩, ⟨some 3, some "c"⟩, ⟨some 2, some "b"⟩] "").order,
        (rssdld.checkCycle (fun _ => true)
          [⟨some 1, some "a"⟩, ⟨some 3, some "c"⟩, ⟨some 2, some "b"⟩] "").downloads)
      = rssdld.specDedup ""
          ((rssdld.sortByPub
              [⟨some 1, some "a"⟩, ⟨some 3, some "c"⟩, ⟨some 2, some "b"⟩]).filterMap
            rssdld.Item.key) :=
  c3_checkFeed_dedup.1 [⟨some 1, some "a"⟩, ⟨some 3, some "c"⟩, ⟨some 2, some "b"⟩] ""
    (by decide)

/-- Helper: after the per-item loop the in-memory order is the key of the last
successfully downloaded item, or the starting order if none was downloaded. -/
theorem processItems_order_is_last_download (dl : rssdld.Item → Bool)
    (l : List rssdld.Item) (order : String) :
    (rssdld.processItems dl l order).order
      = (rssdld.processItems dl l order).downloads.getLastD order := by
  induction l generalizing order with
  | nil => rfl
  | cons itm rest ih =>
    obtain ⟨pub, key⟩ := itm
    cases key with
    | none => simpa [rssdld.processItems] using ih order
    | some o =>
      simp only [rssdld.processItems]
      cases hlt : rssdld.strLt order o
      · simpa [hlt] using ih order
      · cases hdl : dl ⟨pub, some o⟩
        · simp [hlt, hdl]
        · simp [hlt, hdl, ih o, List.getLast?_cons]

/-- Helper: the per-item loop attempts exactly the downloads it completed,
plus at most one final failed attempt; nothing later is attempted. -/
theorem processItems_attempts_stop_at_failure (dl : rssdld.Item → Bool)
    (l : List rssdld.Item) (order : String) :
    (rssdld.processItems dl l order).attempts = (rssdld.processItems dl l order).downloads
      ∨ ∃ k, (rssdld.processItems dl l order).attempts
          = (rssdld.processItems dl l order).downloads ++ [k] := by
  induction l generalizing order with
  | nil => exact Or.inl rfl
  | cons itm rest ih =>
    obtain ⟨pub, key⟩ := itm
    cases key with
    | none => simpa [rssdld.processItems] using ih order
    | some o =>
      simp only [rssdld.processItems]
      cases hlt : rssdld.strLt order o
      · simpa [hlt] using ih order
      · cases hdl : dl ⟨pub, some o⟩
        · simp [hlt, hdl]
        · rcases ih o with h | ⟨k, h⟩
          · exact Or.inl (by simp [hlt, hdl, h])
          · exact Or.inr ⟨k, by simp [hlt, hdl, h]⟩

/-- C4: (1) a cycle containing an item without a parseable publish time is
abandoned before any download and leaves the order unchanged; (2) the order
after a cycle is the key of the last successful download (the start order if
none), attempts stop at the first failure (at most one attempted key beyond
the successful downloads); and for items "a", "b", "c" where downloading "b"
fails, only "a" and "b" are attempted, "a" is downloaded, and the final order
is "a", not "c". -/
theorem c4_checkFeed_failure_handling :
    (∀ (dl : rssdld.Item → Bool) (itms : List rssdld.Item) (order : String),
        (∃ itm ∈ itms, itm.pub = none) →
        rssdld.checkCycle dl itms order = ⟨order, [], []⟩)
    ∧ (∀ (dl : rssdld.Item → Bool) (itms : List rssdld.Item) (order : String),
        (rssdld.checkCycle dl itms order).order
            = (rssdld.checkCycle dl itms order).downloads.getLastD order
          ∧ ((rssdld.checkCycle dl itms order).attempts
                = (rssdld.checkCycle dl itms order).downloads
              ∨ ∃ k, (rssdld.checkCycle dl itms order).attempts
                  = (rssdld.checkCycle dl itms order).downloads ++ [k]))
    ∧ rssdld.checkCycle (fun itm => itm.key != some "b")
        [⟨some 1, some "a"⟩, ⟨some 2, some "b"⟩, ⟨some 3, some "c"⟩] ""
        = ⟨"a", ["a"], ["a", "b"]⟩ := by
  refine ⟨?_, ?_, by decide⟩
  · intro dl itms order h
    have hany : (itms.any fun itm => itm.pub.isNone) = true := by
      rw [List.any_eq_true]
      obtain ⟨itm, hm, hp⟩ := h
      exact ⟨itm, hm, by simp [hp]⟩
    rw [rssdld.checkCycle, hany]
    rfl
  · intro dl itms order
    rw [rssdld.checkCycle]
    cases hany : (itms.any fun itm => itm.pub.isNone)
    · simp only [Bool.false_eq_true, if_false]
      exact ⟨processItems_order_is_last_download dl (rssdld.sortByPub itms) order,
        processItems_attempts_stop_at_failure dl (rssdld.sortByPub itms) order⟩
    · simp only [if_true]
      exact ⟨rfl, Or.inl trivial⟩

/-- Witness for C4 applying the abandoned-cycle conjunct to a one-item feed
whose item has no publish time. -/
theorem c4_checkFeed_failure_handling_witness :
    rssdld.checkCycle (fun _ => true) [⟨none, some "a"⟩] "x"
      = ⟨"x", [], []⟩ :=
  c4_checkFeed_failure_handling.1 (fun _ => true) [⟨none, some "a"⟩] "x" (by decide)

/-- C5: SetOrder updates the in-memory map and synchronously writes the whole
map durably before returning (on success the durable map equals the updated
in-memory map); on write failure the error is returned but the in-memory map
keeps the new value, so a subsequent GetOrder still returns it. -/
theorem c5_SetOrder_write_through (st : state.State) (name v : String) (wOk : Bool) :
    state.GetOrder (state.SetOrder st name v wOk).1 name = v
      ∧ (wOk = true →
          (state.SetOrder st name v wOk).2 = .ok ()
            ∧ (state.SetOrder st name v wOk).1.disk = (state.SetOrder st name v wOk).1.mem)
      ∧ (wOk = false →
          (state.SetOrder st name v wOk).2 = .error .writeError
            ∧ state.GetOrder (state.SetOrder st name v wOk).1 name = v) := by
  cases wOk <;> simp [state.SetOrder, state.GetOrder]

/-- Witness for C5 on an empty store with a failing durable write. -/
theorem c5_SetOrder_write_through_witness :
    state.GetOrder
        (state.SetOrder ⟨state.emptyFeedMap, state.emptyFeedMap⟩ "feed" "07" false).1 "feed"
        = "07"
      ∧ (state.SetOrder ⟨state.emptyFeedMap, state.emptyFeedMap⟩ "feed" "07" false).2
          = .error .writeError :=
  ⟨(c5_SetOrder_write_through ⟨state.emptyFeedMap, state.emptyFeedMap⟩ "feed" "07" false).1,
    ((c5_SetOrder_write_through ⟨state.emptyFeedMap, state.emptyFeedMap⟩ "feed" "07"
      false).2.2 rfl).1⟩

/-- C6: Open performs a three-way case split: a missing file yields an empty
map written durably at once (failing with the write error when that write
fails); an unreadable file is a read error; an undecodable file is a parse
error; and a store opened from a missing file answers the empty string for
every name. -/
theorem c6_Open_three_cases :
    state.Open .missing true = .ok ⟨state.emptyFeedMap, state.emptyFeedMap⟩
      ∧ state.Open .missing false = .error .writeError
      ∧ (∀ wOk, state.Open .unreadable wOk = .error .readError)
      ∧ (∀ wOk, state.Open (.found none) wOk = .error .parseError)
      ∧ (∀ st, state.Open .missing true = .ok st → ∀ name, state.GetOrder st name = "") := by
  refine ⟨rfl, rfl, fun _ => rfl, fun _ => rfl, ?_⟩
  intro st h name
  have hst := Except.ok.inj h
  rw [← hst]
  rfl

/-- Witness for C6 reading back a fresh store. -/
theorem c6_Open_three_cases_witness :
    state.GetOrder ⟨state.emptyFeedMap, state.emptyFeedMap⟩ "feed" = "" :=
  c6_Open_three_cases.2.2.2.2 ⟨state.emptyFeedMap, state.emptyFeedMap⟩ rfl "feed"

/-- C9: frame property of SetOrder: the in-memory order of every other feed
name is unchanged, and the durably written map is the previous in-memory map
with only the entry for the written name updated. -/
theorem c9_SetOrder_frame (st : state.State) (n1 n2 v : String) (wOk : Bool)
    (h : n1 ≠ n2) :
    state.GetOrder (state.SetOrder st n1 v wOk).1 n2 = state.GetOrder st n2
      ∧ (wOk = true →
          (state.SetOrder st n1 v wOk).1.disk n1 = some v
            ∧ (state.SetOrder st n1 v wOk).1.disk n2 = st.mem n2) := by
  cases wOk <;> simp [state.SetOrder, state.GetOrder, Ne.symm h]

/-- Witness for C9 on an empty store with two distinct names. -/
theorem c9_SetOrder_frame_witness :
    state.GetOrder (state.SetOrder ⟨state.emptyFeedMap, state.emptyFeedMap⟩ "a" "1" true).1 "b"
        = state.GetOrder ⟨state.emptyFeedMap, state.emptyFeedMap⟩ "b"
      ∧ (state.SetOrder ⟨state.emptyFeedMap, state.emptyFeedMap⟩ "a" "1" true).1.disk "a"
          = some "1"
      ∧ (state.SetOrder ⟨state.emptyFeedMap, state.emptyFeedMap⟩ "a" "1" true).1.disk "b"
          = state.emptyFeedMap "b" := by
  have h := c9_SetOrder_frame ⟨state.emptyFeedMap, state.emptyFeedMap⟩ "a" "b" "1" true
    (by decide)
  exact ⟨h.1, (h.2 rfl).1, (h.2 rfl).2⟩

/-- Helper: a rendered digit is a digit character. -/
theorem isDigitChar_digitChar (n : Int) (h0 : 0 ≤ n) (h9 : n ≤ 9) :
    weekly.isDigitChar (weekly.digitChar n) = true := by
  interval_cases n <;> decide

/-- Helper: reading back a rendered digit gives the digit. -/
theorem digitVal_digitChar (n : Int) (h0 : 0 ≤ n) (h9 : n ≤ 9) :
    weekly.digitVal (weekly.digitChar n) = n := by
  interval_cases n <;> decide

/-- Helper: getnum in fixed mode consumes exactly a two-digit rendering. -/
theorem getnum_fixed_two (a b : Int) (rest : List Char)
    (ha0 : 0 ≤ a) (ha9 : a ≤ 9) (hb0 : 0 ≤ b) (hb9 : b ≤ 9) :
    weekly.getnum (weekly.digitChar a :: weekly.digitChar b :: rest) true
      = some (10 * weekly.digitVal (weekly.digitChar a)
          + weekly.digitVal (weekly.digitChar b), rest) := by
  simp [weekly.getnum, isDigitChar_digitChar a ha0 ha9, isDigitChar_digitChar b hb0 hb9]

/-- Helper: a colon is not a digit character. -/
theorem isDigitChar_colon : weekly.isDigitChar ':' = false := by decide

/-- Helper: the character 1 is a digit of value one. -/
theorem isDigitChar_one : weekly.isDigitChar '1' = true := by decide

/-- Helper: the digit value of the character 1. -/
theorem digitVal_one : weekly.digitVal '1' = 1 := by decide

/-- Helper: getnum in free mode reads the canonical hour rendering, stopping
at the following colon. -/
theorem getnum_hourStr (n : Int) (rest : List Char) (h1 : 1 ≤ n) (h12 : n ≤ 12) :
    weekly.getnum (weekly.hourStr n ++ ':' :: rest) false = some (n, ':' :: rest) := by
  by_cases h : n < 10
  · rw [weekly.hourStr, if_pos h]
    simp [weekly.getnum, isDigitChar_digitChar n (by omega) (by omega),
      digitVal_digitChar n (by omega) (by omega), isDigitChar_colon]
  · rw [weekly.hourStr, if_neg h]
    simp [weekly.getnum, isDigitChar_one, digitVal_one,
      isDigitChar_digitChar (n - 10) (by omega) (by omega),
      digitVal_digitChar (n - 10) (by omega) (by omega)]

theorem parseKitchen_roundtrip (h m : Int) (hh0 : 0 ≤ h) (hh : h ≤ 23)
    (hm0 : 0 ≤ m) (hm : m ≤ 59) :
    weekly.parseKitchen
        (weekly.hourStr (if h % 12 = 0 then 12 else h % 12)
          ++ ':' :: (weekly.minStr m ++ (if 12 ≤ h then ['P', 'M'] else ['A', 'M'])))
      = some (h, m) := by
  have hb1 : 0 ≤ m / 10 := by omega
  have hb2 : m / 10 ≤ 9 := by omega
  have hb3 : 0 ≤ m % 10 := by omega
  have hb4 : m % 10 ≤ 9 := by omega
  have hmhr1 : 1 ≤ (if h % 12 = 0 then 12 else h % 12) := by
    by_cases hz : h % 12 = 0 <;> simp [hz] <;> omega
  have hmhr12 : (if h % 12 = 0 then 12 else h % 12) ≤ 12 := by
    by_cases hz : h % 12 = 0 <;> simp [hz] <;> omega
  rw [weekly.parseKitchen, getnum_hourStr _ _ hmhr1 hmhr12]
  simp only [weekly.minStr, List.cons_append, List.nil_append]
  rw [getnum_fixed_two _ _ _ hb1 hb2 hb3 hb4,
    digitVal_digitChar _ hb1 hb2, digitVal_digitChar _ hb3 hb4]
  have hmm : 10 * (m / 10) + m % 10 = m := by omega
  rw [hmm]
  by_cases hpm : 12 ≤ h
  · simp only [if_pos hpm]
    split_ifs <;> simp_all <;> omega
  · simp only [if_neg hpm]
    split_ifs <;> simp_all <;> omega

/-- Helper: Parse on a list with at least four characters selects the weekday
prefix and hands the remainder to the Kitchen parser. -/
theorem Parse_cons4 (c1 c2 c3 c4 : Char) (rest : List Char) :
    weekly.Parse (c1 :: c2 :: c3 :: c4 :: rest)
      = match weekly.strToDay [c1, c2, c3, c4] with
        | none => none
        | some d =>
          match weekly.parseKitchen rest with
          | none => none
          | some (h, m) => some ⟨d, h, m⟩ := by
  rw [weekly.Parse, if_neg (by simp [List.length_cons])]
  rw [show List.take 4 (c1 :: c2 :: c3 :: c4 :: rest) = [c1, c2, c3, c4] from rfl,
    show List.drop 4 (c1 :: c2 :: c3 :: c4 :: rest) = rest from rfl]

/-- Helper: formatting a valid weekly time and parsing it back returns the
same value. -/
theorem Parse_String_roundtrip (w : weekly.Time) (hw : w.Valid) :
    weekly.Parse w.String = some w := by
  obtain ⟨d, h, m⟩ := w
  obtain ⟨h1, h2, h3, h4, h5, h6⟩ := hw
  have hk := parseKitchen_roundtrip h m h3 h4 h5 h6
  simp at hk
  interval_cases d <;>
    simp [weekly.Time.String, weekly.dayToStr, Parse_cons4, weekly.strToDay, hk]

/-- C8: Format (String) is the inverse of Parse: parsing the canonical
rendering of any in-range weekly time returns that value, and every canonical
string accepted by Parse is reproduced exactly by formatting the parse
result. -/
theorem c8_Parse_String_inverse :
    (∀ w : weekly.Time, w.Valid → weekly.Parse w.String = some w)
    ∧ (∀ s : List Char, weekly.Canonical s →
        ∃ w : weekly.Time, weekly.Parse s = some w ∧ w.String = s) := by
  refine ⟨Parse_String_roundtrip, ?_⟩
  rintro s ⟨w, hw, rfl⟩
  exact ⟨w, Parse_String_roundtrip w hw, rfl⟩

/-- Witness for C8 at Thu 7:30PM. -/
theorem c8_Parse_String_inverse_witness :
    weekly.Parse (weekly.Time.String ⟨4, 19, 30⟩) = some ⟨4, 19, 30⟩ :=
  c8_Parse_String_inverse.1 ⟨4, 19, 30⟩ (by decide)
